import Mathlib

/-!
Verification of the WASAPI audio-capture ring buffer
(src/audiocapture_wasapi.cpp, class AudioCapture_WASAPI).

The embedding models the ring-buffer state of the class (fields
Ring/RingSize/RingRead/RingWrite/RingTimePos/RingTimeValue together with the
session constants BytesPerSample and SampleRate) and its operations:

* the append performed by CaptureThreadFunc for each hardware packet
  (lines 76-108): overflow drop, anchor update, write-cursor advance,
  rebase of all counters by RingSize, and the wrap-around two-segment copy
  (memset for silent packets);
* Read (lines 208-221), JumpToTime (lines 223-230), Flush (lines 232-236).

Machine integers: the C++ fields are 32-bit unsigned.  We model them as ℕ.
In every theorem below the hypotheses (the cursor invariant, and packet
length at most RingSize where stated) guarantee that no C++ subtraction
wraps below zero and no addition reaches 2^32 for any realistic RingSize,
so the ℕ model agrees with the uint32 semantics on the covered states.
`double` time values are modelled as ℚ (exact arithmetic).
-/

/-- Ring-buffer state of class AudioCapture_WASAPI: the fields touched by
CaptureThreadFunc / Read / JumpToTime / Flush, plus the per-session constants
BytesPerSample and SampleRate (from the negotiated format). -/
structure CapState where
  RingSize : ℕ
  RingRead : ℕ
  RingWrite : ℕ
  RingTimePos : ℕ
  RingTimeValue : ℚ
  Ring : ℕ → ℕ
  BytesPerSample : ℕ
  SampleRate : ℕ

/-- Fresh session state: cursors and anchor zero, ring zero-initialised
(`Ring = new uint8[RingSize]` — contents irrelevant, we pick 0). -/
def initState (ringSize bytesPerSample sampleRate : ℕ) : CapState :=
  { RingSize := ringSize
    RingRead := 0
    RingWrite := 0
    RingTimePos := 0
    RingTimeValue := 0
    Ring := fun _ => 0
    BytesPerSample := bytesPerSample
    SampleRate := sampleRate }

/-- The two-segment wrap-around write of CaptureThreadFunc lines 98-108:
`chunk1 = Min(bytes, RingSize - pos)`; first `memcpy(Ring + pos, data, chunk1)`,
then `memcpy(Ring, data + chunk1, bytes - chunk1)`.  The second copy happens
after the first, so on (out-of-contract) overlap the second segment wins:
its test comes first below.  A silent packet passes `fun _ => 0` (memset). -/
def writeRing (ring : ℕ → ℕ) (ringSize pos bytes : ℕ) (val : ℕ → ℕ) : ℕ → ℕ :=
  fun i =>
    if i < bytes - min bytes (ringSize - pos) then val (min bytes (ringSize - pos) + i)
    else if pos ≤ i ∧ i < pos + min bytes (ringSize - pos) then val (i - pos)
    else ring i

/-- One packet append as performed by CaptureThreadFunc (lines 76-108):
overflow drop of the oldest bytes, anchor := (old write cursor, packet time),
write-cursor advance, rebase of RingRead/RingWrite/RingTimePos by RingSize
when RingRead has run past RingSize, then the two-segment copy (zero-fill
when the AUDCLNT_BUFFERFLAGS_SILENT flag is set). -/
def appendPacket (s : CapState) (payload : ℕ → ℕ) (bytes : ℕ) (time : ℚ)
    (silent : Bool) : CapState :=
  let avail := s.RingSize - (s.RingWrite - s.RingRead)
  let rc1 := if avail < bytes then s.RingRead + (bytes - avail) else s.RingRead
  let tp1 := s.RingWrite
  let pos := s.RingWrite % s.RingSize
  let w1 := s.RingWrite + bytes
  let rebase := s.RingSize < rc1
  { s with
    RingRead := if rebase then rc1 - s.RingSize else rc1
    RingWrite := if rebase then w1 - s.RingSize else w1
    RingTimePos := if rebase then tp1 - s.RingSize else tp1
    RingTimeValue := time
    Ring :=
      if silent then writeRing s.Ring s.RingSize pos bytes (fun _ => 0)
      else writeRing s.Ring s.RingSize pos bytes payload }

/-- Result of AudioCapture_WASAPI::Read: the bytes copied to `dest`, the
reported timestamp, and the updated state. -/
structure ReadResult where
  data : List ℕ
  time : ℚ
  state : CapState

/-- AudioCapture_WASAPI::Read (lines 208-221): timestamp from the anchor at
the current (pre-advance) RingRead, byte count clamped to the buffered
amount, two-segment wrap-around copy out, RingRead advanced by the count. -/
def readOp (s : CapState) (maxBytes : ℕ) : ReadResult :=
  let time := s.RingTimeValue +
    (((s.RingRead : ℚ)) - (s.RingTimePos : ℚ)) /
      ((s.BytesPerSample * s.SampleRate : ℕ) : ℚ)
  let size := min maxBytes (s.RingWrite - s.RingRead)
  let pos := s.RingRead % s.RingSize
  let chunk1 := min size (s.RingSize - pos)
  { data := (List.range size).map fun j =>
      if j < chunk1 then s.Ring (pos + j) else s.Ring (j - chunk1)
    time := time
    state := { s with RingRead := s.RingRead + size } }

/-- C `round` (half away from zero), on exact rationals. -/
def rnd (x : ℚ) : ℤ :=
  if 0 ≤ x then ⌊x + 1 / 2⌋ else ⌈x - 1 / 2⌉

/-- AudioCapture_WASAPI::JumpToTime (lines 223-230): target byte offset from
the anchor, clamped into [RingRead, RingWrite].  The int arithmetic is exact
(ℤ); the final store back to the uint field is `Int.toNat` (the clamped value
is at least RingRead ≥ 0). -/
def jumpOp (s : CapState) (time : ℚ) : CapState :=
  let deltasamples : ℤ := rnd ((time - s.RingTimeValue) * (s.SampleRate : ℚ))
  let destpos : ℤ := (s.RingTimePos : ℤ) + deltasamples * (s.BytesPerSample : ℤ)
  { s with
    RingRead := (max (s.RingRead : ℤ) (min destpos (s.RingWrite : ℤ))).toNat }

/-- AudioCapture_WASAPI::Flush (lines 232-236). -/
def flushOp (s : CapState) : CapState :=
  { s with RingRead := s.RingWrite }

/-- The cursor invariant of the ring:
`RingRead ≤ RingWrite ≤ RingRead + RingSize`. -/
def RingInv (s : CapState) : Prop :=
  s.RingRead ≤ s.RingWrite ∧ s.RingWrite ≤ s.RingRead + s.RingSize

/-- One public operation on the ring (what the capture thread and the
consumer can do to the state). -/
inductive RingOp where
  | append (payload : ℕ → ℕ) (bytes : ℕ) (time : ℚ) (silent : Bool)
  | readN (maxBytes : ℕ)
  | jump (time : ℚ)
  | flush

/-- State transition of a single operation. -/
def stepOp (s : CapState) : RingOp → CapState
  | .append p b t sil => appendPacket s p b t sil
  | .readN m => (readOp s m).state
  | .jump t => jumpOp s t
  | .flush => flushOp s

/-- Run a sequence of operations from a state. -/
def runOps (s : CapState) (ops : List RingOp) : CapState :=
  ops.foldl stepOp s

/-- Overflow drop amount of an append: `bytes - available`, 0 when the
packet fits (`available = RingSize - (RingWrite - RingRead)`). -/
def dropAmt (s : CapState) (bytes : ℕ) : ℕ :=
  if s.RingSize - (s.RingWrite - s.RingRead) < bytes then
    bytes - (s.RingSize - (s.RingWrite - s.RingRead))
  else 0

/-- Rebase amount of an append: RingSize when the post-drop RingRead exceeds
RingSize, else 0. -/
def shiftAmt (s : CapState) (bytes : ℕ) : ℕ :=
  if s.RingSize < s.RingRead + dropAmt s bytes then s.RingSize else 0

theorem append_RingSize (s : CapState) (p : ℕ → ℕ) (b : ℕ) (t : ℚ) (sil : Bool) :
    (appendPacket s p b t sil).RingSize = s.RingSize := rfl

theorem append_BytesPerSample (s : CapState) (p : ℕ → ℕ) (b : ℕ) (t : ℚ) (sil : Bool) :
    (appendPacket s p b t sil).BytesPerSample = s.BytesPerSample := rfl

theorem append_SampleRate (s : CapState) (p : ℕ → ℕ) (b : ℕ) (t : ℚ) (sil : Bool) :
    (appendPacket s p b t sil).SampleRate = s.SampleRate := rfl

theorem append_RingTimeValue (s : CapState) (p : ℕ → ℕ) (b : ℕ) (t : ℚ) (sil : Bool) :
    (appendPacket s p b t sil).RingTimeValue = t := rfl

theorem append_RingRead (s : CapState) (p : ℕ → ℕ) (b : ℕ) (t : ℚ) (sil : Bool) :
    (appendPacket s p b t sil).RingRead + shiftAmt s b
      = s.RingRead + dropAmt s b := by
  simp only [appendPacket, shiftAmt, dropAmt]
  split_ifs <;> omega

theorem append_RingWrite (s : CapState) (p : ℕ → ℕ) (b : ℕ) (t : ℚ) (sil : Bool)
    (hInv : RingInv s) :
    (appendPacket s p b t sil).RingWrite + shiftAmt s b = s.RingWrite + b := by
  obtain ⟨h1, h2⟩ := hInv
  simp only [appendPacket, shiftAmt, dropAmt]
  split_ifs <;> omega

theorem append_RingTimePos (s : CapState) (p : ℕ → ℕ) (b : ℕ) (t : ℚ) (sil : Bool)
    (hInv : RingInv s) (hb : b ≤ s.RingSize) :
    (appendPacket s p b t sil).RingTimePos + shiftAmt s b = s.RingWrite := by
  obtain ⟨h1, h2⟩ := hInv
  simp only [appendPacket, shiftAmt, dropAmt]
  split_ifs <;> omega

theorem append_Ring (s : CapState) (p : ℕ → ℕ) (b : ℕ) (t : ℚ) (sil : Bool) :
    (appendPacket s p b t sil).Ring
      = if sil then writeRing s.Ring s.RingSize (s.RingWrite % s.RingSize) b (fun _ => 0)
        else writeRing s.Ring s.RingSize (s.RingWrite % s.RingSize) b p := rfl

/-- Appends preserve the cursor invariant, for packets of any length:
an overflowing packet advances RingRead so that exactly RingSize bytes
remain, and the rebase subtracts RingSize from both cursors at once. -/
theorem ringInv_append (s : CapState) (p : ℕ → ℕ) (b : ℕ) (t : ℚ) (sil : Bool)
    (hInv : RingInv s) : RingInv (appendPacket s p b t sil) := by
  obtain ⟨h1, h2⟩ := hInv
  simp only [RingInv, appendPacket]
  split_ifs <;> omega

theorem ringInv_read (s : CapState) (m : ℕ) (hInv : RingInv s) : RingInv (readOp s m).state := by
  obtain ⟨h1, h2⟩ := hInv
  simp only [RingInv, readOp]
  omega

theorem ringInv_jump (s : CapState) (t : ℚ) (hInv : RingInv s) : RingInv (jumpOp s t) := by
  obtain ⟨h1, h2⟩ := hInv
  simp only [RingInv, jumpOp]
  generalize (rnd ((t - s.RingTimeValue) * (s.SampleRate : ℚ)) * (s.BytesPerSample : ℤ)) = d
  constructor <;> omega

theorem ringInv_flush (s : CapState) (hInv : RingInv s) : RingInv (flushOp s) := by
  obtain ⟨h1, h2⟩ := hInv
  exact ⟨le_refl _, by simp only [flushOp]; omega⟩

theorem ringInv_step (s : CapState) (op : RingOp) (hInv : RingInv s) : RingInv (stepOp s op) := by
  cases op with
  | append p b t sil => exact ringInv_append s p b t sil hInv
  | readN m => exact ringInv_read s m hInv
  | jump t => exact ringInv_jump s t hInv
  | flush => exact ringInv_flush s hInv

theorem ringInv_runOps (s : CapState) (ops : List RingOp) (hInv : RingInv s) :
    RingInv (runOps s ops) := by
  induction ops generalizing s with
  | nil => exact hInv
  | cons op rest ih => exact ih _ (ringInv_step s op hInv)

theorem ringInv_initState (ringSize bytesPerSample sampleRate : ℕ) :
    RingInv (initState ringSize bytesPerSample sampleRate) := by
  exact ⟨le_refl _, by simp [initState]⟩

/-- C1: For every sequence of Append calls, arbitrarily interleaved with
Read, JumpToTime and Flush, after each operation the cursors satisfy
`RingRead ≤ RingWrite ≤ RingRead + RingSize` (equivalently
`0 ≤ writeCursor - readCursor ≤ capacity`); on overflow the bound is
restored by advancing RingRead.  Stated for every prefix of the run, hence
in particular after each Append. -/
theorem ringbuffer_cursor_invariant :
    ∀ (ringSize bytesPerSample sampleRate : ℕ) (ops : List RingOp),
      RingInv (runOps (initState ringSize bytesPerSample sampleRate) ops) :=
  fun ringSize bytesPerSample sampleRate ops =>
    ringInv_runOps _ ops (ringInv_initState ringSize bytesPerSample sampleRate)

/-- Both residues of a value below `2 * ringSize`. -/
theorem mod_two_region (ringSize y : ℕ) (_h0 : 0 < ringSize) (h2 : y < 2 * ringSize) :
    y % ringSize = if y < ringSize then y else y - ringSize := by
  split_ifs with h
  · exact Nat.mod_eq_of_lt h
  · rw [Nat.mod_eq_sub_mod (le_of_not_lt h)]
    exact Nat.mod_eq_of_lt (by omega)

/-- Two distinct offsets less than `ringSize` apart have distinct residues. -/
theorem mod_ne_of_window (ringSize a b : ℕ) (hab : a < b) (hw : b - a < ringSize) :
    a % ringSize ≠ b % ringSize := by
  intro h
  have hmod : a ≡ b [MOD ringSize] := h
  rw [Nat.modEq_iff_dvd' hab.le] at hmod
  have := Nat.le_of_dvd (by omega) hmod
  omega

/-- A physical index hit by neither write segment keeps its old byte.  The
untouched indices are exactly those that are not `(pos + k) % ringSize` for
some `k < bytes`. -/
theorem writeRing_untouched (ring : ℕ → ℕ) (ringSize pos bytes : ℕ) (val : ℕ → ℕ)
    (_hb : bytes ≤ ringSize) (hpos : pos < ringSize) (x : ℕ) (hx : x < ringSize)
    (hnot : ∀ k, k < bytes → x ≠ (pos + k) % ringSize) :
    writeRing ring ringSize pos bytes val x = ring x := by
  simp only [writeRing]
  split_ifs with h1 h2
  · exfalso
    refine hnot (min bytes (ringSize - pos) + x) (by omega) ?_
    rw [show pos + (min bytes (ringSize - pos) + x) = ringSize + x by omega,
      Nat.add_mod_left, Nat.mod_eq_of_lt hx]
  · exfalso
    refine hnot (x - pos) (by omega) ?_
    rw [show pos + (x - pos) = x by omega, Nat.mod_eq_of_lt hx]
  · rfl

/-- The k-th written byte lands at physical index `(pos + k) % ringSize` and
carries `val k`. -/
theorem writeRing_written (ring : ℕ → ℕ) (ringSize pos bytes : ℕ) (val : ℕ → ℕ)
    (hb : bytes ≤ ringSize) (hpos : pos < ringSize) (k : ℕ) (hk : k < bytes) :
    writeRing ring ringSize pos bytes val ((pos + k) % ringSize) = val k := by
  by_cases hcase : k < min bytes (ringSize - pos)
  · have hx : (pos + k) % ringSize = pos + k := Nat.mod_eq_of_lt (by omega)
    simp only [writeRing, hx]
    rw [if_neg (by omega), if_pos ⟨by omega, by omega⟩,
      show pos + k - pos = k by omega]
  · have hx : (pos + k) % ringSize = pos + k - ringSize := by
      rw [mod_two_region ringSize (pos + k) (by omega) (by omega)]
      rw [if_neg (by omega)]
    simp only [writeRing, hx]
    rw [if_pos (by omega), show min bytes (ringSize - pos) + (pos + k - ringSize) = k by omega]

/-- Byte access into a list with default 0 (a `uint8*` view of the copies). -/
def nthByte (l : List ℕ) (n : ℕ) : ℕ := l.getD n 0

theorem readOp_data_length (s : CapState) (m : ℕ) :
    (readOp s m).data.length = min m (s.RingWrite - s.RingRead) := by
  simp [readOp]

/-- The two copy segments of Read produce, at output position j, the byte at
physical index `(RingRead + j) % RingSize`. -/
theorem readOp_data_nth (s : CapState) (m : ℕ) (hInv : RingInv s)
    (h0 : 0 < s.RingSize) (j : ℕ) (hj : j < min m (s.RingWrite - s.RingRead)) :
    nthByte (readOp s m).data j = s.Ring ((s.RingRead + j) % s.RingSize) := by
  obtain ⟨h1, h2⟩ := hInv
  have hpos : s.RingRead % s.RingSize < s.RingSize := Nat.mod_lt _ h0
  have hlen : j < (readOp s m).data.length := by rw [readOp_data_length]; exact hj
  rw [nthByte, List.getD_eq_getElem _ _ hlen]
  simp only [readOp, List.getElem_map, List.getElem_range]
  split_ifs with hc
  · have e1 : (s.RingRead + j) % s.RingSize = s.RingRead % s.RingSize + j := by
      rw [← Nat.mod_add_mod]
      exact Nat.mod_eq_of_lt (by omega)
    rw [e1]
  · have e2 : s.RingRead % s.RingSize + j < 2 * s.RingSize := by omega
    have e1 : (s.RingRead + j) % s.RingSize
        = j - min (min m (s.RingWrite - s.RingRead))
            (s.RingSize - s.RingRead % s.RingSize) := by
      rw [← Nat.mod_add_mod, mod_two_region s.RingSize _ h0 e2,
        if_neg (by omega)]
      omega
    rw [e1]

/-- C4: Read returns exactly `min maxBytes (RingWrite - RingRead)` bytes —
never more than is buffered — copies them wrap-aware starting at
`RingRead % RingSize`, and advances RingRead by exactly that count. -/
theorem read_returns_min_wrap_aware (s : CapState) (m : ℕ)
    (hInv : RingInv s) (h0 : 0 < s.RingSize) :
    (readOp s m).data.length = min m (s.RingWrite - s.RingRead)
    ∧ (readOp s m).data.length ≤ s.RingWrite - s.RingRead
    ∧ (∀ j, j < (readOp s m).data.length →
        nthByte (readOp s m).data j = s.Ring ((s.RingRead + j) % s.RingSize))
    ∧ (readOp s m).state.RingRead = s.RingRead + min m (s.RingWrite - s.RingRead) := by
  refine ⟨readOp_data_length s m, ?_, ?_, rfl⟩
  · rw [readOp_data_length]; omega
  · intro j hj
    rw [readOp_data_length] at hj
    exact readOp_data_nth s m hInv h0 j hj

/-- A concrete in-range state shared by the witnesses: capacity 4, three
buffered bytes, mid-ring cursors, anchor at offset 3 / time 1. -/
def exState : CapState :=
  { RingSize := 4
    RingRead := 2
    RingWrite := 5
    RingTimePos := 3
    RingTimeValue := 1
    Ring := fun i => i + 10
    BytesPerSample := 1
    SampleRate := 1 }

/-- Witness for C4 at `exState` with `maxBytes = 2`. -/
theorem read_returns_min_wrap_aware_witness :
    (RingInv exState ∧ 0 < exState.RingSize)
    ∧ ((readOp exState 2).data.length = min 2 (exState.RingWrite - exState.RingRead)
      ∧ (readOp exState 2).data.length ≤ exState.RingWrite - exState.RingRead
      ∧ (∀ j, j < (readOp exState 2).data.length →
          nthByte (readOp exState 2).data j
            = exState.Ring ((exState.RingRead + j) % exState.RingSize))
      ∧ (readOp exState 2).state.RingRead
          = exState.RingRead + min 2 (exState.RingWrite - exState.RingRead)) :=
  ⟨⟨⟨by decide, by decide⟩, by decide⟩,
    read_returns_min_wrap_aware exState 2 ⟨by decide, by decide⟩ (by decide)⟩

/-- Physical indices touched by the two append copy segments of
CaptureThreadFunc lines 98-108: `Ring + pos .. pos + chunk1` and
`Ring + 0 .. bytes - chunk1`, with `pos = RingWrite % RingSize` and
`chunk1 = Min(bytes, RingSize - pos)`. -/
def appendAccesses (s : CapState) (bytes : ℕ) : List ℕ :=
  (List.range (min bytes (s.RingSize - s.RingWrite % s.RingSize))).map
    (fun j => s.RingWrite % s.RingSize + j)
  ++ List.range (bytes - min bytes (s.RingSize - s.RingWrite % s.RingSize))

/-- Physical indices touched by the two Read copy segments (lines 214-217):
`Ring + pos .. pos + chunk1` and `Ring + 0 .. size - chunk1`, with
`pos = RingRead % RingSize`, `size = Min(maxBytes, RingWrite - RingRead)`
and `chunk1 = Min(size, RingSize - pos)`. -/
def readAccesses (s : CapState) (maxBytes : ℕ) : List ℕ :=
  (List.range (min (min maxBytes (s.RingWrite - s.RingRead))
      (s.RingSize - s.RingRead % s.RingSize))).map
    (fun j => s.RingRead % s.RingSize + j)
  ++ List.range (min maxBytes (s.RingWrite - s.RingRead)
      - min (min maxBytes (s.RingWrite - s.RingRead))
          (s.RingSize - s.RingRead % s.RingSize))

/-- Counterexample to C2 as stated ("for any packet length"): at the
reachable initial state of a capacity-4 ring, an append of 9 bytes has its
second segment run past the storage: it touches index 4 (indeed indices 4
and onward), which is outside [0, 4).  C++-side this is a heap overflow of
`memcpy(Ring, data + chunk1, bytes - chunk1)`. -/
theorem append_access_out_of_bounds :
    ¬ (∀ i ∈ appendAccesses (runOps (initState 4 1 1) []) 9,
        i < (runOps (initState 4 1 1) []).RingSize) := by
  decide

/-- C2 amended: when the packet length is at most the capacity (true of
every WASAPI packet, whose size is bounded by the 20 ms device buffer,
far below the one-second ring), all append accesses are in [0, RingSize);
Read accesses are in bounds for every maxBytes, with no length restriction,
at any state satisfying the cursor invariant. -/
theorem ring_accesses_in_bounds (s : CapState) (bytes maxBytes : ℕ)
    (hInv : RingInv s) (h0 : 0 < s.RingSize) (hb : bytes ≤ s.RingSize) :
    (∀ i ∈ appendAccesses s bytes, i < s.RingSize)
    ∧ (∀ i ∈ readAccesses s maxBytes, i < s.RingSize) := by
  obtain ⟨h1, h2⟩ := hInv
  have hposW : s.RingWrite % s.RingSize < s.RingSize := Nat.mod_lt _ h0
  have hposR : s.RingRead % s.RingSize < s.RingSize := Nat.mod_lt _ h0
  constructor
  · intro i hi
    simp only [appendAccesses, List.mem_append, List.mem_map, List.mem_range] at hi
    rcases hi with ⟨j, hj, rfl⟩ | hi <;> omega
  · intro i hi
    simp only [readAccesses, List.mem_append, List.mem_map, List.mem_range] at hi
    rcases hi with ⟨j, hj, rfl⟩ | hi <;> omega

/-- Witness for the amended C2 at `exState` (append 3 bytes, read up to 7). -/
theorem ring_accesses_in_bounds_witness :
    (RingInv exState ∧ 0 < exState.RingSize ∧ 3 ≤ exState.RingSize)
    ∧ ((∀ i ∈ appendAccesses exState 3, i < exState.RingSize)
      ∧ (∀ i ∈ readAccesses exState 7, i < exState.RingSize)) :=
  ⟨⟨⟨by decide, by decide⟩, by decide, by decide⟩,
    ring_accesses_in_bounds exState 3 7 ⟨by decide, by decide⟩ (by decide) (by decide)⟩

/-- C10: the consumer-side operations Read, JumpToTime and Flush never
modify RingWrite, the anchor (RingTimePos, RingTimeValue), the ring bytes,
or the session format constants, and never decrease RingRead. -/
theorem consumer_ops_frame (s : CapState) (m : ℕ) (t : ℚ) (hInv : RingInv s) :
    ((readOp s m).state.RingWrite = s.RingWrite
      ∧ (readOp s m).state.RingTimePos = s.RingTimePos
      ∧ (readOp s m).state.RingTimeValue = s.RingTimeValue
      ∧ (readOp s m).state.Ring = s.Ring
      ∧ s.RingRead ≤ (readOp s m).state.RingRead)
    ∧ ((jumpOp s t).RingWrite = s.RingWrite
      ∧ (jumpOp s t).RingTimePos = s.RingTimePos
      ∧ (jumpOp s t).RingTimeValue = s.RingTimeValue
      ∧ (jumpOp s t).Ring = s.Ring
      ∧ s.RingRead ≤ (jumpOp s t).RingRead)
    ∧ ((flushOp s).RingWrite = s.RingWrite
      ∧ (flushOp s).RingTimePos = s.RingTimePos
      ∧ (flushOp s).RingTimeValue = s.RingTimeValue
      ∧ (flushOp s).Ring = s.Ring
      ∧ s.RingRead ≤ (flushOp s).RingRead) := by
  refine ⟨⟨rfl, rfl, rfl, rfl, Nat.le_add_right _ _⟩,
    ⟨rfl, rfl, rfl, rfl, ?_⟩, ⟨rfl, rfl, rfl, rfl, hInv.1⟩⟩
  simp only [jumpOp]
  generalize (rnd ((t - s.RingTimeValue) * (s.SampleRate : ℚ))
    * (s.BytesPerSample : ℤ)) = d
  omega

/-- Witness for C10 at `exState` with `maxBytes = 2`, `t = 3/2`. -/
theorem consumer_ops_frame_witness :
    RingInv exState
    ∧ (((readOp exState 2).state.RingWrite = exState.RingWrite
        ∧ (readOp exState 2).state.RingTimePos = exState.RingTimePos
        ∧ (readOp exState 2).state.RingTimeValue = exState.RingTimeValue
        ∧ (readOp exState 2).state.Ring = exState.Ring
        ∧ exState.RingRead ≤ (readOp exState 2).state.RingRead)
      ∧ ((jumpOp exState (3 / 2)).RingWrite = exState.RingWrite
        ∧ (jumpOp exState (3 / 2)).RingTimePos = exState.RingTimePos
        ∧ (jumpOp exState (3 / 2)).RingTimeValue = exState.RingTimeValue
        ∧ (jumpOp exState (3 / 2)).Ring = exState.Ring
        ∧ exState.RingRead ≤ (jumpOp exState (3 / 2)).RingRead)
      ∧ ((flushOp exState).RingWrite = exState.RingWrite
        ∧ (flushOp exState).RingTimePos = exState.RingTimePos
        ∧ (flushOp exState).RingTimeValue = exState.RingTimeValue
        ∧ (flushOp exState).Ring = exState.Ring
        ∧ exState.RingRead ≤ (flushOp exState).RingRead)) :=
  ⟨⟨by decide, by decide⟩, consumer_ops_frame exState 2 (3 / 2) ⟨by decide, by decide⟩⟩

/-- C5: the timestamp returned by Read equals
`anchor.time + (readCursor - anchor.offset) / bytesPerSecond` with
`bytesPerSecond = BytesPerSample * SampleRate`, where the anchor
(RingTimePos, RingTimeValue) is the pair recorded by the most recent append
— its time is the packet time `t`, its offset is the packet-start write
cursor (shifted together with both cursors if that append rebased) — and
readCursor is its value at the start of the Read call, before being
advanced by the returned byte count (last conjunct). -/
theorem read_timestamp_from_anchor (s : CapState) (p : ℕ → ℕ) (b : ℕ) (t : ℚ)
    (sil : Bool) (m : ℕ) (hInv : RingInv s) (hb : b ≤ s.RingSize) :
    (readOp (appendPacket s p b t sil) m).time
      = t + (((appendPacket s p b t sil).RingRead : ℚ)
              - ((appendPacket s p b t sil).RingTimePos : ℚ))
          / ((s.BytesPerSample * s.SampleRate : ℕ) : ℚ)
    ∧ (appendPacket s p b t sil).RingTimeValue = t
    ∧ (appendPacket s p b t sil).RingTimePos + shiftAmt s b = s.RingWrite
    ∧ (readOp (appendPacket s p b t sil) m).state.RingRead
        = (appendPacket s p b t sil).RingRead
          + (readOp (appendPacket s p b t sil) m).data.length := by
  refine ⟨rfl, rfl, append_RingTimePos s p b t sil hInv hb, ?_⟩
  rw [readOp_data_length]
  rfl

/-- Witness for C5: append 2 payload bytes at time 5 onto `exState`, then
read with `maxBytes = 3`. -/
theorem read_timestamp_from_anchor_witness :
    (RingInv exState ∧ 2 ≤ exState.RingSize)
    ∧ ((readOp (appendPacket exState (fun i => i + 40) 2 5 false) 3).time
        = 5 + (((appendPacket exState (fun i => i + 40) 2 5 false).RingRead : ℚ)
                - ((appendPacket exState (fun i => i + 40) 2 5 false).RingTimePos : ℚ))
            / ((exState.BytesPerSample * exState.SampleRate : ℕ) : ℚ)
      ∧ (appendPacket exState (fun i => i + 40) 2 5 false).RingTimeValue = 5
      ∧ (appendPacket exState (fun i => i + 40) 2 5 false).RingTimePos
          + shiftAmt exState 2 = exState.RingWrite
      ∧ (readOp (appendPacket exState (fun i => i + 40) 2 5 false) 3).state.RingRead
          = (appendPacket exState (fun i => i + 40) 2 5 false).RingRead
            + (readOp (appendPacket exState (fun i => i + 40) 2 5 false) 3).data.length) :=
  ⟨⟨⟨by decide, by decide⟩, by decide⟩,
    read_timestamp_from_anchor exState (fun i => i + 40) 2 5 false 3
      ⟨by decide, by decide⟩ (by decide)⟩

/-- C8: a silent append is payload-independent — any two payloads (absent
or garbage data) produce the identical state — and every byte it writes
into the ring is zero. -/
theorem silent_append_zero_fill (s : CapState) (p q : ℕ → ℕ) (b : ℕ) (t : ℚ)
    (h0 : 0 < s.RingSize) (hb : b ≤ s.RingSize) :
    appendPacket s p b t true = appendPacket s q b t true
    ∧ ∀ k, k < b →
        (appendPacket s p b t true).Ring ((s.RingWrite + k) % s.RingSize) = 0 := by
  refine ⟨rfl, ?_⟩
  intro k hk
  have hpos : s.RingWrite % s.RingSize < s.RingSize := Nat.mod_lt _ h0
  have e1 : (s.RingWrite + k) % s.RingSize
      = (s.RingWrite % s.RingSize + k) % s.RingSize := by
    rw [Nat.mod_add_mod]
  show writeRing s.Ring s.RingSize (s.RingWrite % s.RingSize) b (fun _ => 0)
      ((s.RingWrite + k) % s.RingSize) = 0
  rw [e1, writeRing_written s.Ring s.RingSize _ b _ hb hpos k hk]

/-- Witness for C8: silent append of length 3 with two different garbage
payloads onto `exState`. -/
theorem silent_append_zero_fill_witness :
    (0 < exState.RingSize ∧ 3 ≤ exState.RingSize)
    ∧ (appendPacket exState (fun i => i + 90) 3 7 true
        = appendPacket exState (fun _ => 255) 3 7 true
      ∧ ∀ k, k < 3 →
          (appendPacket exState (fun i => i + 90) 3 7 true).Ring
            ((exState.RingWrite + k) % exState.RingSize) = 0) :=
  ⟨⟨by decide, by decide⟩,
    silent_append_zero_fill exState (fun i => i + 90) (fun _ => 255) 3 7
      (by decide) (by decide)⟩

theorem nthByte_append_left (l l2 : List ℕ) (n : ℕ) (h : n < l.length) :
    nthByte (l ++ l2) n = nthByte l n := by
  induction l generalizing n with
  | nil => simp at h
  | cons a as ih =>
    cases n with
    | zero => rfl
    | succ k =>
      show nthByte (as ++ l2) k = nthByte as k
      exact ih k (by simpa using h)

theorem nthByte_append_right (l l2 : List ℕ) (n : ℕ) (h : l.length ≤ n) :
    nthByte (l ++ l2) n = nthByte l2 (n - l.length) := by
  induction l generalizing n with
  | nil => simp [nthByte]
  | cons a as ih =>
    cases n with
    | zero => simp at h
    | succ k =>
      show nthByte (as ++ l2) k = nthByte l2 (k + 1 - (as.length + 1))
      rw [Nat.succ_sub_succ]
      exact ih k (by simpa using h)

/-- Append of a concrete packet given as a byte list (non-silent), as the
capture thread performs it. -/
def appendData (s : CapState) (p : List ℕ) (t : ℚ) : CapState :=
  appendPacket s (fun i => nthByte p i) p.length t false

/-- Concatenation of the payloads of a packet sequence: the logical byte
stream ever appended. -/
def streamOf : List (List ℕ × ℚ) → List ℕ
  | [] => []
  | q :: rest => q.1 ++ streamOf rest

/-- Run the capture thread over a sequence of (payload, timestamp) packets. -/
def appendRun (s : CapState) (pkts : List (List ℕ × ℚ)) : CapState :=
  pkts.foldl (fun u q => appendData u q.1 q.2) s

/-- Correspondence between the physical ring and the logical appended
stream: cursor offset `i` (shifted by `base`, the total amount removed by
rebases) holds stream byte `i + base`, for every unread offset. -/
def ContentsFrom (s : CapState) (stream : List ℕ) (base : ℕ) : Prop :=
  s.RingWrite + base = stream.length ∧
  ∀ i, s.RingRead ≤ i → i < s.RingWrite →
    s.Ring (i % s.RingSize) = nthByte stream (i + base)

/-- Arithmetic facts about one append under the invariant. -/
theorem append_arith (s : CapState) (b : ℕ) (hInv : RingInv s) (hb : b ≤ s.RingSize) :
    dropAmt s b ≤ b
    ∧ s.RingRead + dropAmt s b ≤ s.RingWrite
    ∧ s.RingWrite + b ≤ s.RingRead + dropAmt s b + s.RingSize
    ∧ (shiftAmt s b = 0
        ∨ (shiftAmt s b = s.RingSize ∧ s.RingSize < s.RingRead + dropAmt s b)) := by
  obtain ⟨h1, h2⟩ := hInv
  simp only [dropAmt, shiftAmt]
  split_ifs <;> omega

/-- One non-silent append preserves the ring/stream correspondence: the new
packet is appended to the stream and the rebase amount is absorbed into the
base offset. -/
theorem contents_append (s : CapState) (p : List ℕ) (t : ℚ) (stream : List ℕ)
    (base : ℕ) (hInv : RingInv s) (h0 : 0 < s.RingSize)
    (hb : p.length ≤ s.RingSize) (hc : ContentsFrom s stream base) :
    ContentsFrom (appendData s p t) (stream ++ p)
      (base + shiftAmt s p.length) := by
  obtain ⟨hc1, hc2⟩ := hc
  obtain ⟨ha1, ha2, ha3, ha4⟩ := append_arith s p.length hInv hb
  have hrc := append_RingRead s (fun i => nthByte p i) p.length t false
  have hw := append_RingWrite s (fun i => nthByte p i) p.length t false hInv
  have hpos : s.RingWrite % s.RingSize < s.RingSize := Nat.mod_lt _ h0
  constructor
  · show (appendData s p t).RingWrite + (base + shiftAmt s p.length)
        = (stream ++ p).length
    rw [List.length_append]
    simp only [appendData] at *
    omega
  · intro i hi1 hi2
    simp only [appendData] at hi1 hi2 ⊢
    have hiw : i + shiftAmt s p.length < s.RingWrite + p.length := by omega
    have hirc : s.RingRead + dropAmt s p.length ≤ i + shiftAmt s p.length := by
      omega
    have him : i % s.RingSize = (i + shiftAmt s p.length) % s.RingSize := by
      rcases ha4 with h | ⟨h, _⟩
      · rw [h, Nat.add_zero]
      · rw [h, Nat.add_mod_right]
    show writeRing s.Ring s.RingSize (s.RingWrite % s.RingSize) p.length
        (fun i => nthByte p i) (i % s.RingSize)
      = nthByte (stream ++ p) (i + (base + shiftAmt s p.length))
    by_cases hold : i + shiftAmt s p.length < s.RingWrite
    · -- the byte predates this append: segment-untouched, old correspondence
      have hne : ∀ k, k < p.length →
          i % s.RingSize ≠ (s.RingWrite % s.RingSize + k) % s.RingSize := by
        intro k hk heq
        rw [him, Nat.mod_add_mod] at heq
        exact mod_ne_of_window s.RingSize (i + shiftAmt s p.length)
          (s.RingWrite + k) (by omega) (by omega) heq
      rw [writeRing_untouched s.Ring s.RingSize _ p.length _ hb hpos _
        (Nat.mod_lt _ h0) hne]
      have hidx : i + (base + shiftAmt s p.length)
          = i + shiftAmt s p.length + base := by omega
      rw [hidx, nthByte_append_left _ _ _ (by omega), him]
      exact hc2 _ (by omega) hold
    · -- the byte belongs to the new packet
      have hk : i + shiftAmt s p.length - s.RingWrite < p.length := by omega
      have hmodw : i % s.RingSize
          = (s.RingWrite % s.RingSize
              + (i + shiftAmt s p.length - s.RingWrite)) % s.RingSize := by
        rw [Nat.mod_add_mod, him]
        congr 1
        omega
      rw [hmodw, writeRing_written s.Ring s.RingSize _ p.length _ hb hpos _ hk]
      have hidx : i + (base + shiftAmt s p.length)
          = stream.length + (i + shiftAmt s p.length - s.RingWrite) := by omega
      rw [hidx, nthByte_append_right _ _ _ (by omega)]
      congr 1
      omega

/-- The buffered amount after one append is `min (L + b) RingSize` when it
was `min L RingSize` before (L = logical stream length). -/
theorem used_after_append (s : CapState) (p : ℕ → ℕ) (b : ℕ) (t : ℚ) (sil : Bool)
    (hInv : RingInv s) (L : ℕ)
    (hL : s.RingWrite - s.RingRead = min L s.RingSize) :
    (appendPacket s p b t sil).RingWrite - (appendPacket s p b t sil).RingRead
      = min (L + b) s.RingSize := by
  obtain ⟨h1, h2⟩ := hInv
  have hrc := append_RingRead s p b t sil
  have hw := append_RingWrite s p b t sil ⟨h1, h2⟩
  have hfacts : (dropAmt s b = 0 ∧ s.RingWrite - s.RingRead + b ≤ s.RingSize)
      ∨ (s.RingSize - (s.RingWrite - s.RingRead) < b
          ∧ dropAmt s b = b - (s.RingSize - (s.RingWrite - s.RingRead))) := by
    simp only [dropAmt]
    split_ifs with h
    · exact Or.inr ⟨h, rfl⟩
    · exact Or.inl ⟨rfl, by omega⟩
  omega

/-- Running the capture thread over a packet sequence preserves the
invariant, the ring/stream correspondence, and keeps the buffered amount
equal to `min (stream length) RingSize`. -/
theorem contents_run (pkts : List (List ℕ × ℚ)) :
    ∀ (s : CapState) (stream : List ℕ) (base : ℕ),
      RingInv s → 0 < s.RingSize →
      (∀ q ∈ pkts, q.1.length ≤ s.RingSize) →
      ContentsFrom s stream base →
      s.RingWrite - s.RingRead = min stream.length s.RingSize →
      ∃ base2,
        RingInv (appendRun s pkts)
        ∧ (appendRun s pkts).RingSize = s.RingSize
        ∧ ContentsFrom (appendRun s pkts) (stream ++ streamOf pkts) base2
        ∧ (appendRun s pkts).RingWrite - (appendRun s pkts).RingRead
            = min (stream ++ streamOf pkts).length s.RingSize := by
  induction pkts with
  | nil =>
    intro s stream base h1 h2 h3 h4 h5
    refine ⟨base, h1, rfl, ?_, ?_⟩
    · show ContentsFrom s (stream ++ streamOf []) base
      rw [show streamOf [] = ([] : List ℕ) from rfl, List.append_nil]
      exact h4
    · show s.RingWrite - s.RingRead = min (stream ++ streamOf []).length s.RingSize
      rw [show streamOf [] = ([] : List ℕ) from rfl, List.append_nil]
      exact h5
  | cons q rest ih =>
    intro s stream base h1 h2 h3 h4 h5
    have hq : q.1.length ≤ s.RingSize := h3 q (List.mem_cons_self _ _)
    have hInv2 : RingInv (appendData s q.1 q.2) :=
      ringInv_append s (fun i => nthByte q.1 i) q.1.length q.2 false h1
    have hcf := contents_append s q.1 q.2 stream base h1 h2 hq h4
    have hused : (appendData s q.1 q.2).RingWrite - (appendData s q.1 q.2).RingRead
        = min (stream ++ q.1).length s.RingSize := by
      rw [List.length_append]
      exact used_after_append s (fun i => nthByte q.1 i) q.1.length q.2 false h1
        stream.length h5
    have hsz : (appendData s q.1 q.2).RingSize = s.RingSize := rfl
    obtain ⟨b2, g1, g2, g3, g4⟩ := ih (appendData s q.1 q.2) (stream ++ q.1)
      (base + shiftAmt s q.1.length) hInv2 (by rw [hsz]; exact h2)
      (by intro r hr; rw [hsz]; exact h3 r (List.mem_cons_of_mem _ hr))
      hcf (by rw [hsz]; exact hused)
    refine ⟨b2, g1, ?_, ?_, ?_⟩
    · show (appendRun (appendData s q.1 q.2) rest).RingSize = s.RingSize
      rw [g2, hsz]
    · show ContentsFrom (appendRun (appendData s q.1 q.2) rest)
        (stream ++ streamOf (q :: rest)) b2
      rw [show streamOf (q :: rest) = q.1 ++ streamOf rest from rfl,
        ← List.append_assoc]
      exact g3
    · show (appendRun (appendData s q.1 q.2) rest).RingWrite
          - (appendRun (appendData s q.1 q.2) rest).RingRead
        = min (stream ++ streamOf (q :: rest)).length s.RingSize
      rw [show streamOf (q :: rest) = q.1 ++ streamOf rest from rfl,
        ← List.append_assoc, ← hsz]
      exact g4

/-- C3: (1) an overflowing append (byteLength > available) advances
RingRead by exactly `byteLength - available` — modulo the documented rebase
of all counters by RingSize — and, being a total function, raises no error;
(2) FIFO loss: appending packets totalling at least the capacity from a
fresh session and then reading at least `capacity` bytes returns exactly
the most recently appended `capacity` bytes of the logical stream. -/
theorem overflow_drops_oldest_fifo :
    (∀ (s : CapState) (p : ℕ → ℕ) (b : ℕ) (t : ℚ) (sil : Bool),
        s.RingSize - (s.RingWrite - s.RingRead) < b →
        (appendPacket s p b t sil).RingRead + shiftAmt s b
          = s.RingRead + (b - (s.RingSize - (s.RingWrite - s.RingRead))))
    ∧ (∀ (ringSize bps rate m : ℕ) (pkts : List (List ℕ × ℚ)),
        0 < ringSize →
        (∀ q ∈ pkts, q.1.length ≤ ringSize) →
        ringSize ≤ (streamOf pkts).length →
        ringSize ≤ m →
        (readOp (appendRun (initState ringSize bps rate) pkts) m).data.length
            = ringSize
        ∧ ∀ j, j < ringSize →
            nthByte (readOp (appendRun (initState ringSize bps rate) pkts) m).data j
              = nthByte (streamOf pkts)
                  ((streamOf pkts).length - ringSize + j)) := by
  constructor
  · intro s p b t sil hov
    have h := append_RingRead s p b t sil
    have hd : dropAmt s b = b - (s.RingSize - (s.RingWrite - s.RingRead)) := by
      simp only [dropAmt]
      rw [if_pos hov]
    omega
  · intro N bps rate m pkts h0 hall hL hm
    have hInv0 : RingInv (initState N bps rate) := ringInv_initState N bps rate
    have hcf0 : ContentsFrom (initState N bps rate) [] 0 := by
      refine ⟨by simp [initState], ?_⟩
      intro i h1 h2
      simp only [initState] at h2
      omega
    have hused0 : (initState N bps rate).RingWrite - (initState N bps rate).RingRead
        = min ([] : List ℕ).length (initState N bps rate).RingSize := by
      simp [initState]
    obtain ⟨base, hInvF, hszF, hcfF, husedF⟩ :=
      contents_run pkts (initState N bps rate) [] 0 hInv0 h0 hall hcf0 hused0
    rw [List.nil_append] at hcfF husedF
    obtain ⟨hcf1, hcf2⟩ := hcfF
    have husedN : (appendRun (initState N bps rate) pkts).RingWrite
        - (appendRun (initState N bps rate) pkts).RingRead = N := by
      rw [husedF]
      have : (initState N bps rate).RingSize = N := rfl
      omega
    have hszN : (appendRun (initState N bps rate) pkts).RingSize = N := hszF
    constructor
    · rw [readOp_data_length]
      omega
    · intro j hj
      have hjm : j < min m ((appendRun (initState N bps rate) pkts).RingWrite
          - (appendRun (initState N bps rate) pkts).RingRead) := by omega
      rw [readOp_data_nth _ m hInvF (by rw [hszN]; exact h0) j hjm]
      rw [hcf2 ((appendRun (initState N bps rate) pkts).RingRead + j)
        (by omega) (by omega)]
      congr 1
      have hrw := hInvF.1
      omega

/-- Witness for C3: part 1 at `exState` (capacity 4, 3 buffered, available
1) with an overflowing 2-byte packet; part 2 on a fresh capacity-4 ring fed
[1,2,3] then [4,5,6] — 6 bytes total — where Read(10) must return exactly
[3,4,5,6], the last 4 bytes of the stream. -/
theorem overflow_drops_oldest_fifo_witness :
    (exState.RingSize - (exState.RingWrite - exState.RingRead) < 2
      ∧ (appendPacket exState (fun _ => 0) 2 0 false).RingRead + shiftAmt exState 2
          = exState.RingRead
            + (2 - (exState.RingSize - (exState.RingWrite - exState.RingRead))))
    ∧ ((0 < 4 ∧ (∀ q ∈ [([1, 2, 3], (0 : ℚ)), ([4, 5, 6], 1)], q.1.length ≤ 4)
        ∧ 4 ≤ (streamOf [([1, 2, 3], (0 : ℚ)), ([4, 5, 6], 1)]).length ∧ 4 ≤ 10)
      ∧ (readOp (appendRun (initState 4 1 1)
            [([1, 2, 3], (0 : ℚ)), ([4, 5, 6], 1)]) 10).data.length = 4
      ∧ ∀ j, j < 4 →
          nthByte (readOp (appendRun (initState 4 1 1)
              [([1, 2, 3], (0 : ℚ)), ([4, 5, 6], 1)]) 10).data j
            = nthByte (streamOf [([1, 2, 3], (0 : ℚ)), ([4, 5, 6], 1)])
                ((streamOf [([1, 2, 3], (0 : ℚ)), ([4, 5, 6], 1)]).length - 4 + j)) :=
  ⟨⟨by decide,
      overflow_drops_oldest_fifo.1 exState (fun _ => 0) 2 0 false (by decide)⟩,
    ⟨⟨by decide, by decide, by decide, by decide⟩,
      overflow_drops_oldest_fifo.2 4 1 1 10 [([1, 2, 3], (0 : ℚ)), ([4, 5, 6], 1)]
        (by decide) (by decide) (by decide) (by decide)⟩⟩

/-- Bytes per second of the negotiated format,
`BytesPerSample * Format->Format.nSamplesPerSec` as used by Read. -/
def bytesPerSec (s : CapState) : ℚ := ((s.BytesPerSample * s.SampleRate : ℕ) : ℚ)

/-- Absolute time of a cursor position, by linear extrapolation from the
anchor (the expression of Read line 211 and of the spec's anchor design). -/
def timeAt (s : CapState) (c : ℚ) : ℚ :=
  s.RingTimeValue + (c - (s.RingTimePos : ℚ)) / bytesPerSec s

theorem readOp_time (s : CapState) (m : ℕ) :
    (readOp s m).time = timeAt s (s.RingRead : ℚ) := rfl

/-- C round stays within half a unit of its argument. -/
theorem rnd_bounds (x : ℚ) : x - 1 / 2 ≤ (rnd x : ℚ) ∧ (rnd x : ℚ) ≤ x + 1 / 2 := by
  unfold rnd
  split_ifs with h
  · constructor
    · have := Int.lt_floor_add_one (x + 1 / 2)
      push_cast at this ⊢
      linarith
    · have := Int.floor_le (x + 1 / 2)
      push_cast at this ⊢
      linarith
  · constructor
    · have := Int.le_ceil (x - 1 / 2)
      push_cast at this ⊢
      linarith
    · have := Int.ceil_lt_add_one (x - 1 / 2)
      push_cast at this ⊢
      linarith

theorem timeAt_mono (s : CapState) (hB : 0 < s.BytesPerSample * s.SampleRate)
    {a b : ℚ} (hab : a ≤ b) : timeAt s a ≤ timeAt s b := by
  unfold timeAt
  have hBQ : (0 : ℚ) < bytesPerSec s := by
    unfold bytesPerSec
    exact_mod_cast hB
  have h2 : (a - (s.RingTimePos : ℚ)) / bytesPerSec s
      ≤ (b - (s.RingTimePos : ℚ)) / bytesPerSec s :=
    (div_le_div_iff_of_pos_right hBQ).mpr (by linarith)
  linarith

/-- The anchor-extrapolated time of the (unclamped) JumpToTime target byte
offset is the requested time rounded to the sample grid. -/
theorem timeAt_dest (s : CapState) (t : ℚ) (hr : 0 < s.SampleRate)
    (hbps : 0 < s.BytesPerSample) :
    timeAt s ((((s.RingTimePos : ℤ)
        + rnd ((t - s.RingTimeValue) * (s.SampleRate : ℚ))
          * (s.BytesPerSample : ℤ)) : ℤ) : ℚ)
      = s.RingTimeValue
        + (rnd ((t - s.RingTimeValue) * (s.SampleRate : ℚ)) : ℚ)
          / (s.SampleRate : ℚ) := by
  have hbQ : ((s.BytesPerSample : ℚ)) ≠ 0 := by
    exact_mod_cast hbps.ne'
  have hrQ : ((s.SampleRate : ℚ)) ≠ 0 := by
    exact_mod_cast hr.ne'
  unfold timeAt bytesPerSec
  push_cast
  field_simp
  ring

/-- C6: JumpToTime sets RingRead to
`clamp(anchor.offset + round((t - anchor.time) * SampleRate) * BytesPerSample,
RingRead, RingWrite)` (first conjunct, the exact source expression), and when
the requested time lies inside the retained window the resulting read
position corresponds to a time within one sample period (1/SampleRate, in
fact within half of it) of the request; outside the window it pins to the
nearest bound, which is itself within one sample period whenever the request
is inside the window. -/
theorem jump_clamps_and_seeks_within_sample (s : CapState) (t : ℚ)
    (hInv : RingInv s) (hr : 0 < s.SampleRate) (hbps : 0 < s.BytesPerSample) :
    ((jumpOp s t).RingRead : ℤ)
        = max (s.RingRead : ℤ)
            (min ((s.RingTimePos : ℤ)
                + rnd ((t - s.RingTimeValue) * (s.SampleRate : ℚ))
                  * (s.BytesPerSample : ℤ))
              (s.RingWrite : ℤ))
    ∧ (timeAt s (s.RingRead : ℚ) ≤ t → t ≤ timeAt s (s.RingWrite : ℚ) →
        |timeAt (jumpOp s t) (((jumpOp s t).RingRead : ℕ) : ℚ) - t|
          ≤ 1 / (s.SampleRate : ℚ)) := by
  have hrcw : (s.RingRead : ℤ) ≤ (s.RingWrite : ℤ) := by exact_mod_cast hInv.1
  have hz0 : (0 : ℤ) ≤ max (s.RingRead : ℤ)
      (min ((s.RingTimePos : ℤ)
          + rnd ((t - s.RingTimeValue) * (s.SampleRate : ℚ))
            * (s.BytesPerSample : ℤ))
        (s.RingWrite : ℤ)) :=
    le_trans (Int.natCast_nonneg _) (le_max_left _ _)
  have hpart1 : ((jumpOp s t).RingRead : ℤ)
      = max (s.RingRead : ℤ)
          (min ((s.RingTimePos : ℤ)
              + rnd ((t - s.RingTimeValue) * (s.SampleRate : ℚ))
                * (s.BytesPerSample : ℤ))
            (s.RingWrite : ℤ)) := Int.toNat_of_nonneg hz0
  refine ⟨hpart1, ?_⟩
  intro hlo hhi
  have hsame : ∀ c, timeAt (jumpOp s t) c = timeAt s c := fun c => rfl
  rw [hsame]
  have hrQ : (0 : ℚ) < (s.SampleRate : ℚ) := by exact_mod_cast hr
  have hBn : 0 < s.BytesPerSample * s.SampleRate := Nat.mul_pos hbps hr
  have hcast : (((jumpOp s t).RingRead : ℕ) : ℚ)
      = ((max (s.RingRead : ℤ)
          (min ((s.RingTimePos : ℤ)
              + rnd ((t - s.RingTimeValue) * (s.SampleRate : ℚ))
                * (s.BytesPerSample : ℤ))
            (s.RingWrite : ℤ)) : ℤ) : ℚ) := by
    exact_mod_cast hpart1
  rw [hcast]
  have hrnd := rnd_bounds ((t - s.RingTimeValue) * (s.SampleRate : ℚ))
  have htd := timeAt_dest s t hr hbps
  have htt : t = s.RingTimeValue
      + (t - s.RingTimeValue) * (s.SampleRate : ℚ) / (s.SampleRate : ℚ) := by
    field_simp
  have hub : timeAt s ((((s.RingTimePos : ℤ)
      + rnd ((t - s.RingTimeValue) * (s.SampleRate : ℚ))
        * (s.BytesPerSample : ℤ)) : ℤ) : ℚ)
      ≤ t + (1 / 2) / (s.SampleRate : ℚ) := by
    rw [htd]
    have h2 : (rnd ((t - s.RingTimeValue) * (s.SampleRate : ℚ)) : ℚ)
          / (s.SampleRate : ℚ)
        ≤ ((t - s.RingTimeValue) * (s.SampleRate : ℚ) + 1 / 2)
          / (s.SampleRate : ℚ) :=
      (div_le_div_iff_of_pos_right hrQ).mpr hrnd.2
    rw [add_div] at h2
    linarith [htt]
  have hlb : t - (1 / 2) / (s.SampleRate : ℚ)
      ≤ timeAt s ((((s.RingTimePos : ℤ)
          + rnd ((t - s.RingTimeValue) * (s.SampleRate : ℚ))
            * (s.BytesPerSample : ℤ)) : ℤ) : ℚ) := by
    rw [htd]
    have h2 : ((t - s.RingTimeValue) * (s.SampleRate : ℚ) - 1 / 2)
          / (s.SampleRate : ℚ)
        ≤ (rnd ((t - s.RingTimeValue) * (s.SampleRate : ℚ)) : ℚ)
          / (s.SampleRate : ℚ) :=
      (div_le_div_iff_of_pos_right hrQ).mpr hrnd.1
    rw [sub_div] at h2
    linarith [htt]
  have hhalf : (1 / 2 : ℚ) / (s.SampleRate : ℚ) ≤ 1 / (s.SampleRate : ℚ) :=
    (div_le_div_iff_of_pos_right hrQ).mpr (by norm_num)
  rcases le_or_lt ((s.RingTimePos : ℤ)
      + rnd ((t - s.RingTimeValue) * (s.SampleRate : ℚ))
        * (s.BytesPerSample : ℤ)) (s.RingRead : ℤ) with h1 | h1
  · rw [min_eq_left (le_trans h1 hrcw), max_eq_left h1]
    push_cast
    have hge := timeAt_mono s hBn
      (show ((((s.RingTimePos : ℤ)
          + rnd ((t - s.RingTimeValue) * (s.SampleRate : ℚ))
            * (s.BytesPerSample : ℤ)) : ℤ) : ℚ) ≤ (s.RingRead : ℚ) by
        exact_mod_cast h1)
    rw [abs_le]
    constructor <;> linarith
  · rcases le_or_lt (s.RingWrite : ℤ) ((s.RingTimePos : ℤ)
        + rnd ((t - s.RingTimeValue) * (s.SampleRate : ℚ))
          * (s.BytesPerSample : ℤ)) with h2 | h2
    · rw [min_eq_right h2, max_eq_right hrcw]
      push_cast
      have hle := timeAt_mono s hBn
        (show (s.RingWrite : ℚ) ≤ ((((s.RingTimePos : ℤ)
            + rnd ((t - s.RingTimeValue) * (s.SampleRate : ℚ))
              * (s.BytesPerSample : ℤ)) : ℤ) : ℚ) by
          exact_mod_cast h2)
      rw [abs_le]
      constructor <;> linarith
    · rw [min_eq_left h2.le, max_eq_right h1.le]
      rw [abs_le]
      constructor <;> linarith

/-- A second concrete state for the JumpToTime witness: two buffered bytes,
anchor at offset 0 / time 0, one byte per sample at 1 Hz, so the retained
window spans times [0, 2]. -/
def exJumpState : CapState :=
  { RingSize := 4
    RingRead := 0
    RingWrite := 2
    RingTimePos := 0
    RingTimeValue := 0
    Ring := fun i => i + 10
    BytesPerSample := 1
    SampleRate := 1 }

/-- Witness for C6 at `exJumpState` (retained window of times [0, 2]) with
the in-window request t = 1. -/
theorem jump_clamps_and_seeks_within_sample_witness :
    (RingInv exJumpState
      ∧ 0 < exJumpState.SampleRate ∧ 0 < exJumpState.BytesPerSample
      ∧ timeAt exJumpState (exJumpState.RingRead : ℚ) ≤ 1
      ∧ (1 : ℚ) ≤ timeAt exJumpState (exJumpState.RingWrite : ℚ))
    ∧ (((jumpOp exJumpState 1).RingRead : ℤ)
        = max (exJumpState.RingRead : ℤ)
            (min ((exJumpState.RingTimePos : ℤ)
                + rnd ((1 - exJumpState.RingTimeValue) * (exJumpState.SampleRate : ℚ))
                  * (exJumpState.BytesPerSample : ℤ))
              (exJumpState.RingWrite : ℤ))
      ∧ |timeAt (jumpOp exJumpState 1) (((jumpOp exJumpState 1).RingRead : ℕ) : ℚ) - 1|
          ≤ 1 / (exJumpState.SampleRate : ℚ)) :=
  ⟨⟨⟨by decide, by decide⟩, by decide, by decide,
      by simp [timeAt, bytesPerSec, exJumpState],
      by simp [timeAt, bytesPerSec, exJumpState, one_le_two]⟩,
    (jump_clamps_and_seeks_within_sample exJumpState 1 ⟨by decide, by decide⟩
        (by decide) (by decide)).1,
    (jump_clamps_and_seeks_within_sample exJumpState 1 ⟨by decide, by decide⟩
        (by decide) (by decide)).2
      (by simp [timeAt, bytesPerSec, exJumpState])
      (by simp [timeAt, bytesPerSec, exJumpState, one_le_two])⟩

/-- One hardware packet as delivered to the capture loop: payload pointer,
length in bytes, silence flag. -/
structure Pkt where
  payload : ℕ → ℕ
  bytes : ℕ
  silent : Bool

/-- The hardware timestamp that agrees exactly with the sample-rate
extrapolation from the current anchor to the current write cursor. -/
def extrapTime (s : CapState) : ℚ :=
  s.RingTimeValue + ((s.RingWrite : ℚ) - (s.RingTimePos : ℚ)) / bytesPerSec s

/-- Append of a packet whose hardware timestamp is consistent with the
sample-rate extrapolation (claim C7's side condition on appends). -/
def consAppend (s : CapState) (q : Pkt) : CapState :=
  appendPacket s q.payload q.bytes (extrapTime s) q.silent

/-- A consistently-timed append never decreases the anchor-extrapolated
time of the read cursor (an overflow drop only moves it forward). -/
theorem timeAt_read_consAppend (s : CapState) (q : Pkt) (hInv : RingInv s)
    (hB : 0 < s.BytesPerSample * s.SampleRate) (hb : q.bytes ≤ s.RingSize) :
    timeAt s (s.RingRead : ℚ)
      ≤ timeAt (consAppend s q) ((consAppend s q).RingRead : ℚ) := by
  have hBQ : (0 : ℚ) < bytesPerSec s := by
    unfold bytesPerSec
    exact_mod_cast hB
  have hrc := append_RingRead s q.payload q.bytes (extrapTime s) q.silent
  have htp := append_RingTimePos s q.payload q.bytes (extrapTime s) q.silent hInv hb
  have h1 : ((consAppend s q).RingRead : ℚ) + (shiftAmt s q.bytes : ℚ)
      = (s.RingRead : ℚ) + (dropAmt s q.bytes : ℚ) := by
    exact_mod_cast hrc
  have h2 : ((consAppend s q).RingTimePos : ℚ) + (shiftAmt s q.bytes : ℚ)
      = (s.RingWrite : ℚ) := by
    exact_mod_cast htp
  have h3 : (consAppend s q).RingTimeValue
      = s.RingTimeValue + ((s.RingWrite : ℚ) - (s.RingTimePos : ℚ)) / bytesPerSec s :=
    rfl
  have h4 : bytesPerSec (consAppend s q) = bytesPerSec s := rfl
  unfold timeAt
  rw [h3, h4, add_assoc]
  have expand : ((s.RingWrite : ℚ) - (s.RingTimePos : ℚ)) / bytesPerSec s
      + (((consAppend s q).RingRead : ℚ) - ((consAppend s q).RingTimePos : ℚ))
          / bytesPerSec s
      = ((s.RingRead : ℚ) + (dropAmt s q.bytes : ℚ) - (s.RingTimePos : ℚ))
          / bytesPerSec s := by
    rw [div_add_div_same]
    congr 1
    linarith
  rw [expand]
  have hdrop : (0 : ℚ) ≤ (dropAmt s q.bytes : ℚ) := Nat.cast_nonneg _
  have hfrac : ((s.RingRead : ℚ) - (s.RingTimePos : ℚ)) / bytesPerSec s
      ≤ ((s.RingRead : ℚ) + (dropAmt s q.bytes : ℚ) - (s.RingTimePos : ℚ))
          / bytesPerSec s :=
    (div_le_div_iff_of_pos_right hBQ).mpr (by linarith)
  linarith

/-- C7: across two successive Reads with no intervening JumpToTime or
Flush, and any intervening appends whose hardware timestamps agree with the
sample-rate extrapolation (and whose lengths are, as for every WASAPI
packet, at most the capacity), the second returned timestamp is at least
the first. -/
theorem read_timestamps_monotone (s : CapState) (pkts : List Pkt) (m1 m2 : ℕ)
    (hInv : RingInv s) (hB : 0 < s.BytesPerSample * s.SampleRate)
    (hall : ∀ q ∈ pkts, q.bytes ≤ s.RingSize) :
    (readOp s m1).time
      ≤ (readOp (pkts.foldl consAppend (readOp s m1).state) m2).time := by
  rw [readOp_time, readOp_time]
  suffices h : ∀ (l : List Pkt) (u : CapState), RingInv u →
      u.RingSize = s.RingSize → u.BytesPerSample = s.BytesPerSample →
      u.SampleRate = s.SampleRate →
      (∀ q ∈ l, q.bytes ≤ s.RingSize) →
      timeAt u (u.RingRead : ℚ)
        ≤ timeAt (l.foldl consAppend u) ((l.foldl consAppend u).RingRead : ℚ) by
    have h1 : timeAt s (s.RingRead : ℚ)
        ≤ timeAt (readOp s m1).state ((readOp s m1).state.RingRead : ℚ) := by
      have he : timeAt (readOp s m1).state ((readOp s m1).state.RingRead : ℚ)
          = timeAt s ((s.RingRead + min m1 (s.RingWrite - s.RingRead) : ℕ) : ℚ) :=
        rfl
      rw [he]
      exact timeAt_mono s hB (by exact_mod_cast Nat.le_add_right _ _)
    exact le_trans h1
      (h pkts (readOp s m1).state (ringInv_read s m1 hInv) rfl rfl rfl hall)
  intro l
  induction l with
  | nil => intro u hu _ _ _ _; exact le_refl _
  | cons q rest ih =>
    intro u hu hsz hbps hrate hall2
    have hq : q.bytes ≤ u.RingSize := by
      rw [hsz]
      exact hall2 q (List.mem_cons_self _ _)
    have hBu : 0 < u.BytesPerSample * u.SampleRate := by
      rw [hbps, hrate]
      exact hB
    have step := timeAt_read_consAppend u q hu hBu hq
    have hrest := ih (consAppend u q)
      (ringInv_append u q.payload q.bytes (extrapTime u) q.silent hu)
      hsz hbps hrate
      (fun r hr => hall2 r (List.mem_cons_of_mem _ hr))
    exact le_trans step hrest

/-- Witness for C7 at `exState`: one consistently-timed 2-byte packet
between a Read(1) and a Read(5). -/
theorem read_timestamps_monotone_witness :
    (RingInv exState ∧ 0 < exState.BytesPerSample * exState.SampleRate
      ∧ (∀ q ∈ [Pkt.mk (fun _ => 7) 2 false], q.bytes ≤ exState.RingSize))
    ∧ (readOp exState 1).time
        ≤ (readOp ([Pkt.mk (fun _ => 7) 2 false].foldl consAppend
            (readOp exState 1).state) 5).time :=
  ⟨⟨⟨by decide, by decide⟩, by decide, by decide⟩,
    read_timestamps_monotone exState [Pkt.mk (fun _ => 7) 2 false] 1 5
      ⟨by decide, by decide⟩ (by decide) (by decide)⟩

/-- Fields of the WAVEFORMATEXTENSIBLE returned by GetMixFormat that the
negotiation reads (lines 149-155).  SubFormat GUIDs are encoded by their
Data1 word: KSDATAFORMAT_SUBTYPE_IEEE_FLOAT is {00000003-0000-0010-...}. -/
structure WaveFmt where
  wFormatTag : ℕ
  nChannels : ℕ
  nSamplesPerSec : ℕ
  wBitsPerSample : ℕ
  SubFormat : ℕ

def WAVE_FORMAT_EXTENSIBLE : ℕ := 65534

def WAVE_FORMAT_IEEE_FLOAT : ℕ := 3

def KSDATAFORMAT_SUBTYPE_IEEE_FLOAT : ℕ := 3

/-- Modelled from the spec: the abort machinery behind the constructor's
ASSERT (line 152) lives in system.h, which is not part of src/; per the
spec a failing native-format check is a fatal abort with no recoverable
error channel, modelled as `none`.  The checked condition is exactly the
source's ASSERT expression
`wFormatTag == WAVE_FORMAT_EXTENSIBLE && SubFormat == KSDATAFORMAT_SUBTYPE_IEEE_FLOAT`;
on success the constructor computes
`BytesPerSample = nChannels * wBitsPerSample / 8` (line 154) and sizes the
ring to one second, `RingSize = nSamplesPerSec * BytesPerSample`
(line 155), with fresh cursors. -/
def negotiateSession (f : WaveFmt) : Option CapState :=
  if f.wFormatTag = WAVE_FORMAT_EXTENSIBLE
      ∧ f.SubFormat = KSDATAFORMAT_SUBTYPE_IEEE_FLOAT then
    some (initState (f.nSamplesPerSec * (f.nChannels * f.wBitsPerSample / 8))
      (f.nChannels * f.wBitsPerSample / 8) f.nSamplesPerSec)
  else none

/-- The spec's words: a format is "32-bit float" when its samples are
32-bit IEEE-float encoded — either the plain WAVE_FORMAT_IEEE_FLOAT tag or
the extensible tag with the IEEE-float subformat. -/
def spec_isFloat32 (f : WaveFmt) : Prop :=
  f.wBitsPerSample = 32
  ∧ (f.wFormatTag = WAVE_FORMAT_IEEE_FLOAT
      ∨ (f.wFormatTag = WAVE_FORMAT_EXTENSIBLE
          ∧ f.SubFormat = KSDATAFORMAT_SUBTYPE_IEEE_FLOAT))

/-- Counterexample to C9 as stated: a plain (non-extensible)
WAVE_FORMAT_IEEE_FLOAT 32-bit float format is 32-bit float, yet the session
aborts on it; conversely a 64-bit extensible IEEE-float format is not
32-bit float, yet negotiation proceeds — the check never reads
wBitsPerSample. -/
theorem format_check_ignores_bit_depth :
    spec_isFloat32 (WaveFmt.mk WAVE_FORMAT_IEEE_FLOAT 2 48000 32 0)
    ∧ negotiateSession (WaveFmt.mk WAVE_FORMAT_IEEE_FLOAT 2 48000 32 0) = none
    ∧ ¬ spec_isFloat32 (WaveFmt.mk WAVE_FORMAT_EXTENSIBLE 2 48000 64
          KSDATAFORMAT_SUBTYPE_IEEE_FLOAT)
    ∧ (negotiateSession (WaveFmt.mk WAVE_FORMAT_EXTENSIBLE 2 48000 64
          KSDATAFORMAT_SUBTYPE_IEEE_FLOAT)).isSome = true := by
  refine ⟨⟨rfl, Or.inl rfl⟩, rfl, ?_, rfl⟩
  intro h
  exact absurd h.1 (by decide)

/-- C9 amended: negotiation proceeds iff the native mix format has the
WAVE_FORMAT_EXTENSIBLE tag with the IEEE-float subformat, and aborts
fatally (no recoverable error channel) otherwise; the sample bit depth is
not validated.  On success the session starts with
`BytesPerSample = nChannels * wBitsPerSample / 8` and a one-second ring. -/
theorem format_negotiation_gate :
    ∀ f : WaveFmt,
      ((negotiateSession f).isSome = true
        ↔ (f.wFormatTag = WAVE_FORMAT_EXTENSIBLE
            ∧ f.SubFormat = KSDATAFORMAT_SUBTYPE_IEEE_FLOAT))
      ∧ (negotiateSession f
          = some (initState
              (f.nSamplesPerSec * (f.nChannels * f.wBitsPerSample / 8))
              (f.nChannels * f.wBitsPerSample / 8) f.nSamplesPerSec)
        ∨ negotiateSession f = none) := by
  intro f
  unfold negotiateSession
  split_ifs with h
  · exact ⟨⟨fun _ => h, fun _ => rfl⟩, Or.inl rfl⟩
  · refine ⟨⟨fun hc => ?_, fun hc => absurd hc h⟩, Or.inr rfl⟩
    simp at hc
